import Mathlib

/-!
Verification development for the PocketSDR fundamental GNSS SDR functions
(`python/sdr_func.py`): a shallow embedding of the parallel code search core
(`search_sig`, `search_code`, `corr_max`, `fine_dop`, `dop_bins`, `mix_carr`,
`corr_fft`, `shift_freq`) together with theorems about it.

Modelling conventions:
- Python floats are embedded as real numbers (exact real semantics of the
  floating-point algorithm), complex samples as `ℂ`.
- Python exceptions are modelled by `Option`: a function that can raise
  returns `none` on the raising inputs (`math.log10` on a non-positive
  argument raises a math domain error; `np.zeros` with a negative dimension
  and `range` with step 0 raise `ValueError`).
- Out-of-range sequence reads are modelled with `List.getD` defaults; the
  theorems that depend on element reads carry the corresponding in-range
  hypotheses, mirroring the shapes the Python code actually constructs.
- Numpy float division does not raise on a zero divisor: it produces inf or
  NaN values (with a warning).  Real division is total with `x / 0 = 0`, so
  the embedding cannot represent those entries; consequently no theorem in
  this file constrains the value of a normalized-surface entry produced with
  a zero peak (`P_max = 0`) — statements about that degenerate path speak of
  the pre-normalization surface instead.
- The external collaborators of the engine (`sdr_code.gen_code`,
  `sdr_code.code_cyc`, `sdr_code.gen_code_fft`) are parameters of the
  embedded `search_sig`, exactly as they are external modules in the source.
-/

namespace SdrFunc

/-- Python `int(x)` / numpy `astype(int)` on a float: truncation toward zero. -/
noncomputable def pyTrunc (x : ℝ) : ℤ := if 0 ≤ x then ⌊x⌋ else ⌈x⌉

/-- Python `math.log10`: defined (base-10 logarithm) for positive arguments,
raises a math domain error (modelled by `none`) otherwise. -/
noncomputable def math_log10 (x : ℝ) : Option ℝ :=
  if 0 < x then some (Real.logb 10 x) else none

/-- Embeds `np.arange(start, stop, step)` in exact real arithmetic: the values
`start + k*step` for `k = 0 .. ⌈(stop-start)/step⌉ - 1`. -/
noncomputable def arange (start stop step : ℝ) : List ℝ :=
  (List.range (⌈(stop - start) / step⌉.toNat)).map (fun k : ℕ => start + (k : ℝ) * step)

/-- Python `range(0, stop, step)` for a positive step: the multiples of `step`
below `stop`.  (`range` with step 0 raises; that case is guarded at the call
site in `search_sig`.) -/
def py_range (stop : ℤ) (step : ℕ) : List ℕ :=
  (List.range ((stop.toNat + step - 1) / step)).map (fun k => k * step)

/-- Entry `A[r][c]` of a 2D array, 0 outside the array. -/
noncomputable def entry (A : List (List ℝ)) (r c : ℕ) : ℝ := (A.getD r []).getD c 0

/-- The 2D array `A` has shape `(R, C)`. -/
def Rect (A : List (List ℝ)) (R C : ℕ) : Prop :=
  A.length = R ∧ ∀ i, i < R → (A.getD i []).length = C

/-- Embeds `np.zeros((R, C))`. -/
noncomputable def zeros (R C : ℕ) : List (List ℝ) :=
  List.replicate R (List.replicate C 0)

/-- Elementwise sum of two 2D arrays (numpy `P += Q` on equal shapes). -/
noncomputable def mat_add (A B : List (List ℝ)) : List (List ℝ) :=
  A.zipWith (fun r s => r.zipWith (· + ·) s) B

/-- Column `c` of a 2D array: `P.T[c]`. -/
noncomputable def transpose_col (A : List (List ℝ)) (c : ℕ) : List ℝ :=
  A.map (fun row => row.getD c 0)

/-- Row-major flattening of a 2D array (the order `np.argmax`/`np.mean` see). -/
noncomputable def flat (A : List (List ℝ)) : List ℝ := A.flatten

/-- Number of columns of a 2D array (numpy `A.shape[1]`). -/
def ncols (A : List (List ℝ)) : ℕ := (A.headD []).length

/-- Embeds `np.mean`: arithmetic mean of a sequence. -/
noncomputable def np_mean (l : List ℝ) : ℝ := l.sum / l.length

/-- Embeds `np.argmax`: index of the first occurrence of the maximum value.
(numpy raises on an empty array; the embedding returns 0 there and the
theorems carry nonemptiness hypotheses.) -/
noncomputable def np_argmax : List ℝ → ℕ
  | [] => 0
  | [_] => 0
  | x :: y :: t =>
    let j := np_argmax (y :: t)
    if x < (y :: t).getD j 0 then j + 1 else 0

/-- Embeds `np.unravel_index(k, (R, C))` = `(k / C, k % C)`. -/
def unravel (k C : ℕ) : ℕ × ℕ := (k / C, k % C)

/-- Doppler frequency search step factor (`DOP_STEP` in the source, 0.5). -/
noncomputable def DOP_STEP : ℝ := 1 / 2

/-- The Doppler search grid `dop_bins(T, max_dop)`:
`np.arange(-max_dop, max_dop + DOP_STEP / T, DOP_STEP / T)`. -/
noncomputable def dop_bins (T max_dop : ℝ) : List ℝ :=
  arange (-max_dop) (max_dop + DOP_STEP / T) (DOP_STEP / T)

/-- GLONASS FDMA IF shift `shift_freq(sig, fcn, fi)`. -/
noncomputable def shift_freq (sig : String) (fcn : ℤ) (fi : ℝ) : ℝ :=
  if sig = "G1CA" then fi + 0.5625e6 * fcn
  else if sig = "G2CA" then fi + 0.4375e6 * fcn
  else fi

/-- The 256-entry carrier lookup table of the reference `mix_carr`:
`carr_tbl[k] = exp(-2j*pi*k/256)` (taken at an arbitrary integer index here;
the code always reads it at an index reduced mod 256). -/
noncomputable def carr_tbl (k : ℤ) : ℂ :=
  Complex.exp (-(2 * (Real.pi : ℂ) * Complex.I * (k : ℂ)) / 256)

/-- Reference (non-native) `mix_carr(buff, ix, N, fs, fc, phi)`:
`buff[ix:ix+N] * carr_tbl[((fc/fs*np.arange(N) + phi) * 256).astype(int) % 256]`.
The float-to-int cast truncates toward zero (`pyTrunc`). Out-of-range buffer
reads are modelled by the `getD` default (numpy would raise a broadcast error);
theorems carry the in-range hypothesis `ix + N ≤ buff.length`. -/
noncomputable def mix_carr (buff : List ℂ) (ix N : ℕ) (fs fc phi : ℝ) : List ℂ :=
  (List.range N).map (fun n =>
    buff.getD (ix + n) 0 * carr_tbl ((pyTrunc ((fc / fs * n + phi) * 256)) % 256))

/-- Embeds `scipy.fftpack.fft`: the discrete Fourier transform
`X[k] = sum_n x[n] * exp(-2*pi*i*n*k/N)`. -/
noncomputable def np_fft (l : List ℂ) : List ℂ :=
  (List.range l.length).map (fun k : ℕ =>
    (l.enum.map (fun p =>
      p.2 * Complex.exp (-(2 * (Real.pi : ℂ) * Complex.I * (p.1 : ℂ) * (k : ℂ)) / (l.length : ℂ)))).sum)

/-- Embeds `scipy.fftpack.ifft`: the inverse discrete Fourier transform, including
the `1/N` normalization. -/
noncomputable def np_ifft (l : List ℂ) : List ℂ :=
  (List.range l.length).map (fun k : ℕ =>
    ((l.enum.map (fun p =>
      p.2 * Complex.exp ((2 * (Real.pi : ℂ) * Complex.I * (p.1 : ℂ) * (k : ℂ)) / (l.length : ℂ)))).sum)
      / (l.length : ℂ))

/-- Reference `corr_fft(data, code_fft) = fft.ifft(fft.fft(data) * code_fft) / len(data)`. -/
noncomputable def corr_fft (data code_fft : List ℂ) : List ℂ :=
  (np_ifft ((np_fft data).zipWith (· * ·) code_fft)).map (fun z => z / (data.length : ℂ))

/-- One block of the parallel code search,
`search_code(code_fft, T, buff, ix, fs, fi, fds)`. This is part of the
parallel code search.  For each Doppler bin the buffer segment of length
`len(code_fft)` at `ix` is mixed down by `fi + fd`, correlated against the
code spectrum, and the squared magnitudes of the first `N` outputs form the
power row (`P[i] = np.abs(corr_fft(...)[0:N]) ** 2`, `N = int(fs*T)`). -/
noncomputable def search_code (code_fft : List ℂ) (T : ℝ) (buff : List ℂ) (ix : ℕ)
    (fs fi2 : ℝ) (fds : List ℝ) : List (List ℝ) :=
  let N := (pyTrunc (fs * T)).toNat
  fds.map (fun fd =>
    ((corr_fft (mix_carr buff ix code_fft.length fs (fi2 + fd) 0) code_fft).take N).map
      (fun z => Complex.abs z ^ 2))

/-- The peak index of `corr_max`: `np.unravel_index(np.argmax(P), P.shape)`. -/
noncomputable def corr_max_ix (P : List (List ℝ)) : ℕ × ℕ :=
  unravel (np_argmax (flat P)) (ncols P)

/-- The peak value of `corr_max`: `P[ix[0]][ix[1]]`. -/
noncomputable def corr_max_val (P : List (List ℝ)) : ℝ :=
  entry P (corr_max_ix P).1 (corr_max_ix P).2

/-- Peak value, peak index and C/N0: `corr_max(P, T)`.
`cn0 = 10.0 * log10((P_max - P_ave) / P_ave / T) if P_ave > 0.0 else 0.0`;
`math.log10` raises (modelled by `none`) on a non-positive argument. -/
noncomputable def corr_max (P : List (List ℝ)) (T : ℝ) : Option (ℝ × (ℕ × ℕ) × ℝ) :=
  let P_ave := np_mean (flat P)
  if 0 < P_ave then
    (math_log10 ((corr_max_val P - P_ave) / P_ave / T)).map
      (fun lg => (corr_max_val P, corr_max_ix P, 10 * lg))
  else some (corr_max_val P, corr_max_ix P, 0)

/-- Embeds `np.polyfit(x, y, 2)` on exactly three sample points: for pairwise
distinct abscissae the degree-2 least-squares fit is the unique interpolating
parabola, written here in Lagrange form as `(a, b, c)` with
`p(x) = a*x^2 + b*x + c`. -/
noncomputable def polyfit3 (x0 x1 x2 y0 y1 y2 : ℝ) : ℝ × ℝ × ℝ :=
  let d0 := (x0 - x1) * (x0 - x2)
  let d1 := (x1 - x0) * (x1 - x2)
  let d2 := (x2 - x0) * (x2 - x1)
  (y0 / d0 + y1 / d1 + y2 / d2,
   -(y0 * (x1 + x2) / d0 + y1 * (x0 + x2) / d1 + y2 * (x0 + x1) / d2),
   y0 * x1 * x2 / d0 + y1 * x0 * x2 / d1 + y2 * x0 * x1 / d2)

/-- Fine Doppler frequency by quadratic fitting, `fine_dop(P, fds, ix)`.
At a boundary peak it returns the bin frequency unchanged; otherwise it fits
a parabola through the three points around the peak and returns `-b/(2a)`. -/
noncomputable def fine_dop (P fds : List ℝ) (ix : ℕ) : ℝ :=
  if ix = 0 ∨ ix = fds.length - 1 then fds.getD ix 0
  else
    let p := polyfit3 (fds.getD (ix - 1) 0) (fds.getD ix 0) (fds.getD (ix + 1) 0)
      (P.getD (ix - 1) 0) (P.getD ix 0) (P.getD (ix + 1) 0);
    -p.2.1 / (2 * p.1)

/-- The non-coherent accumulation loop of `search_sig`:
`P = np.zeros((len(fds), N)); for i in range(0, len(data) - len(code_fft) + 1, N): P += search_code(...)`. -/
noncomputable def search_sig_P (code_fft : List ℂ) (T : ℝ) (data : List ℂ)
    (fs fi2 : ℝ) (fds : List ℝ) : List (List ℝ) :=
  let N := (pyTrunc (fs * T)).toNat
  (py_range ((data.length : ℤ) - code_fft.length + 1) N).foldl
    (fun acc i => mat_add acc (search_code code_fft T data i fs fi2 fds))
    (zeros fds.length N)

/-- The accumulation loop of `search_sig` stopped after its first `k`
iterations (the state of the running total `P` after `k` blocks). -/
noncomputable def search_sig_P_upto (code_fft : List ℂ) (T : ℝ) (data : List ℂ)
    (fs fi2 : ℝ) (fds : List ℝ) (k : ℕ) : List (List ℝ) :=
  let N := (pyTrunc (fs * T)).toNat
  ((py_range ((data.length : ℤ) - code_fft.length + 1) N).take k).foldl
    (fun acc i => mat_add acc (search_code code_fft T data i fs fi2 fds))
    (zeros fds.length N)

/-- The result bundle of `search_sig`: normalized power surface, Doppler grid,
code-offset grid, peak index, C/N0 and fine Doppler. -/
structure SearchResult where
  P : List (List ℝ)
  fds : List ℝ
  coffs : List ℝ
  ix : ℕ × ℕ
  cn0 : ℝ
  dop : ℝ

/-- The acquisition engine `search_sig(sig, prn, data, fs, fi, max_dop, zero_pad)`,
parametrized by
the external `sdr_code` collaborators `gen_code`, `code_cyc`, `gen_code_fft`.
An empty code replica short-circuits to the explicit empty result.
`N = int(fs*T)`; for `N ≤ 0` the Python code raises (`np.zeros` with a
negative dimension, or `range` with step 0), modelled by `none`; a raise of
`math.log10` inside `corr_max` is propagated as `none` as well.
The returned surface is `P / P_max` elementwise; when `P_max = 0` numpy
produces NaN entries (`0.0 / 0.0`, a warning, not an exception), which the
total real division here maps to 0 — no theorem reads the values of the
normalized entries on that path. -/
noncomputable def search_sig (gen_code : String → ℤ → List ℤ) (code_cyc : String → ℝ)
    (gen_code_fft : List ℤ → ℝ → ℝ → ℝ → ℕ → ℕ → List ℂ)
    (sig : String) (prn : ℤ) (data : List ℂ) (fs fi : ℝ)
    (max_dop : ℝ) (zero_pad : Bool) : Option SearchResult :=
  let code := gen_code sig prn
  if code.length = 0 then some ⟨[], [0], [0], (0, 0), 0, 0⟩ else
  let fi2 := shift_freq sig prn fi
  let T := code_cyc sig
  let N := pyTrunc (fs * T)
  if N ≤ 0 then none else
  let code_fft := gen_code_fft code T 0 fs N.toNat (if zero_pad then N.toNat else 0)
  let fds := dop_bins T max_dop
  let P := search_sig_P code_fft T data fs fi2 fds
  match corr_max P T with
  | none => none
  | some (P_max, pix, cn0) =>
    some ⟨P.map (fun row => row.map (fun x => x / P_max)), fds, arange 0 T (1 / fs),
          pix, cn0, fine_dop (transpose_col P pix.2) fds pix.1⟩

/-! ### Basic list helper lemmas -/

lemma getD_replicate_ite {α : Type} (a d : α) : ∀ (n m : ℕ),
    (List.replicate n a).getD m d = if m < n then a else d := by
  intro n
  induction n with
  | zero => intro m; simp
  | succ k ih =>
    intro m
    cases m with
    | zero => simp [List.replicate_succ]
    | succ j => simpa [List.replicate_succ] using ih j

lemma getD_of_lt {α : Type} (l : List α) (d : α) (n : ℕ) (h : n < l.length) :
    l.getD n d = l.get ⟨n, h⟩ := by
  rw [List.getD_eq_getElem l d h]
  rfl

lemma getD_of_le {α : Type} (l : List α) (d : α) (n : ℕ) (h : l.length ≤ n) :
    l.getD n d = d := by
  simp [List.getD_eq_getElem?_getD, List.getElem?_eq_none h]

lemma getD_mem_or_default {α : Type} (l : List α) (d : α) (n : ℕ) :
    l.getD n d ∈ l ∨ l.getD n d = d := by
  rcases Nat.lt_or_ge n l.length with h | h
  · left
    rw [getD_of_lt l d n h]
    exact List.get_mem l n h
  · right
    exact getD_of_le l d n h

lemma getD_nonneg_of_nonneg (l : List ℝ) (n : ℕ) (h : ∀ y ∈ l, 0 ≤ y) :
    0 ≤ l.getD n 0 := by
  rcases getD_mem_or_default l 0 n with hm | hd
  · exact h _ hm
  · rw [hd]

/-! ### `arange` lemmas -/

lemma arange_length (s e st : ℝ) : (arange s e st).length = ⌈(e - s) / st⌉.toNat := by
  unfold arange
  rw [List.length_map, List.length_range]

lemma arange_getD (s e st : ℝ) (k : ℕ) (h : k < ⌈(e - s) / st⌉.toNat) :
    (arange s e st).getD k 0 = s + k * st := by
  have hk : k < (arange s e st).length := by rw [arange_length]; exact h
  rw [getD_of_lt _ _ _ hk]
  simp only [List.get_eq_getElem]
  unfold arange
  rw [List.getElem_map, List.getElem_range]

/-! ### `py_range` lemmas -/

lemma py_range_length (stop : ℤ) (step : ℕ) :
    (py_range stop step).length = (stop.toNat + step - 1) / step := by
  simp [py_range]

lemma py_range_nil (stop : ℤ) (step : ℕ) (h : stop ≤ 0) : py_range stop step = [] := by
  have h0 : stop.toNat = 0 := Int.toNat_of_nonpos h
  have : (stop.toNat + step - 1) / step = 0 := by
    rw [h0]
    rcases Nat.eq_zero_or_pos step with hs | hs
    · simp [hs]
    · exact Nat.div_eq_of_lt (by omega)
  simp [py_range, this]

lemma py_range_mem (stop : ℤ) (step : ℕ) (hstep : 1 ≤ step) (i : ℕ) :
    i ∈ py_range stop step ↔ (∃ k, i = k * step) ∧ (i : ℤ) < stop := by
  constructor
  · intro hi
    simp only [py_range, List.mem_map, List.mem_range] at hi
    obtain ⟨k, hk, rfl⟩ := hi
    refine ⟨⟨k, rfl⟩, ?_⟩
    rw [← Int.lt_toNat]
    have h1 : k + 1 ≤ (stop.toNat + step - 1) / step := hk
    have h2 : (k + 1) * step ≤ stop.toNat + step - 1 :=
      (Nat.le_div_iff_mul_le (by omega)).mp h1
    have h3 : k * step + step = (k + 1) * step := by ring
    omega
  · rintro ⟨⟨k, rfl⟩, hlt⟩
    simp only [py_range, List.mem_map, List.mem_range]
    refine ⟨k, ?_, rfl⟩
    have hlt2 : k * step < stop.toNat := by
      rw [← Int.lt_toNat] at hlt
      exact hlt
    have h2 : (k + 1) * step ≤ stop.toNat + step - 1 := by
      have : (k + 1) * step = k * step + step := by ring
      omega
    exact (Nat.le_div_iff_mul_le (by omega)).mpr h2

/-! ### `np_argmax` lemmas -/

lemma np_argmax_lt (l : List ℝ) (h : l ≠ []) : np_argmax l < l.length := by
  induction l with
  | nil => exact absurd rfl h
  | cons x t ih =>
    cases t with
    | nil => simp [np_argmax]
    | cons y s =>
      have ht : y :: s ≠ [] := by simp
      have := ih ht
      by_cases hx : x < (y :: s).getD (np_argmax (y :: s)) 0
      · simp only [np_argmax, hx, if_true]
        simpa using Nat.succ_lt_succ this
      · simp only [np_argmax, hx, if_false]
        simp

lemma np_argmax_is_max (l : List ℝ) : ∀ y ∈ l, y ≤ l.getD (np_argmax l) 0 := by
  induction l with
  | nil => intro y hy; simp at hy
  | cons x t ih =>
    cases t with
    | nil =>
      intro y hy
      simp at hy
      simp [np_argmax, hy]
    | cons z s =>
      intro y hy
      by_cases hx : x < (z :: s).getD (np_argmax (z :: s)) 0
      · simp only [np_argmax, hx, if_true]
        have hget : (x :: z :: s).getD (np_argmax (z :: s) + 1) 0 =
            (z :: s).getD (np_argmax (z :: s)) 0 := rfl
        rw [hget]
        rcases List.mem_cons.mp hy with rfl | hy2
        · exact le_of_lt hx
        · exact ih y hy2
      · simp only [np_argmax, hx, if_false]
        have hget : (x :: z :: s).getD 0 0 = x := rfl
        rw [hget]
        push_neg at hx
        rcases List.mem_cons.mp hy with rfl | hy2
        · exact le_rfl
        · exact le_trans (ih y hy2) hx

lemma np_argmax_all_zero (l : List ℝ) (h : ∀ y ∈ l, y = 0) : np_argmax l = 0 := by
  cases l with
  | nil => rfl
  | cons x t =>
    cases t with
    | nil => rfl
    | cons z s =>
      have hx : x = 0 := h x (by simp)
      have hget : (z :: s).getD (np_argmax (z :: s)) 0 = 0 := by
        rcases getD_mem_or_default (z :: s) 0 (np_argmax (z :: s)) with hm | hd
        · exact h _ (List.mem_cons_of_mem x hm)
        · exact hd
      have hcond : ¬ x < (z :: s).getD (np_argmax (z :: s)) 0 := by
        rw [hget, hx]
        exact lt_irrefl 0
      simp only [np_argmax, hcond, if_false]

/-! ### Flattening a rectangular 2D array -/

lemma flat_length (A : List (List ℝ)) (C : ℕ) (h : ∀ row ∈ A, row.length = C) :
    (flat A).length = A.length * C := by
  induction A with
  | nil => simp [flat]
  | cons r t ih =>
    have hr : r.length = C := h r (by simp)
    have ht : ∀ row ∈ t, row.length = C := fun row hm => h row (List.mem_cons_of_mem r hm)
    have ih2 := ih ht
    simp only [flat] at ih2
    simp only [flat, List.flatten_cons, List.length_append, List.length_cons]
    rw [hr, ih2]
    ring

lemma flat_getD (A : List (List ℝ)) (C : ℕ) (hC : 0 < C) (h : ∀ row ∈ A, row.length = C) :
    ∀ k, k < A.length * C → (flat A).getD k 0 = entry A (k / C) (k % C) := by
  induction A with
  | nil => intro k hk; simp at hk
  | cons r t ih =>
    intro k hk
    have hr : r.length = C := h r (by simp)
    have ht : ∀ row ∈ t, row.length = C := fun row hm => h row (List.mem_cons_of_mem r hm)
    simp only [flat, List.flatten_cons]
    rcases Nat.lt_or_ge k C with hkC | hkC
    · have hkr : k < r.length := by omega
      have h1 : (r ++ t.flatten).getD k 0 = r.getD k 0 := by
        rw [getD_of_lt _ _ _ (by simp; omega), getD_of_lt _ _ _ hkr]
        exact List.getElem_append_left _
      rw [h1]
      have hdiv : k / C = 0 := Nat.div_eq_of_lt hkC
      have hmod : k % C = k := Nat.mod_eq_of_lt hkC
      simp [entry, hdiv, hmod]
    · have hlen : t.flatten.length = t.length * C := by
        have := flat_length t C ht
        simpa only [flat] using this
      have hk2 : k - C < t.length * C := by
        simp only [List.length_cons] at hk
        have hmul : (t.length + 1) * C = t.length * C + C := by ring
        omega
      have h1 : (r ++ t.flatten).getD k 0 = t.flatten.getD (k - C) 0 := by
        rcases Nat.lt_or_ge (k - C) t.flatten.length with hin | hout
        · have hklen : k < (r ++ t.flatten).length := by
            rw [List.length_append, hr]
            omega
          rw [getD_of_lt _ _ _ hklen, getD_of_lt _ _ _ hin]
          simp only [List.get_eq_getElem]
          have hge : r.length ≤ k := by omega
          rw [List.getElem_append_right hge]
          simp only [hr]
        · rw [getD_of_le _ _ _ (by rw [List.length_append, hr]; omega),
              getD_of_le _ _ _ hout]
      rw [h1]
      have ihk := ih ht (k - C) hk2
      simp only [flat] at ihk
      rw [ihk]
      have hdiv : k / C = (k - C) / C + 1 := by
        conv_lhs => rw [← Nat.sub_add_cancel hkC]
        rw [Nat.add_div_right _ hC]
      have hmod : k % C = (k - C) % C := by
        conv_lhs => rw [← Nat.sub_add_cancel hkC]
        rw [Nat.add_mod_right]
      rw [hdiv, hmod]
      simp [entry]

/-! ### Shape and entry lemmas for the 2D arrays -/

lemma zeros_rect (R C : ℕ) : Rect (zeros R C) R C := by
  constructor
  · simp [zeros]
  · intro i hi
    rw [zeros, getD_replicate_ite _ _ _ _, if_pos hi]
    simp

lemma entry_zeros (R C r c : ℕ) : entry (zeros R C) r c = 0 := by
  unfold entry zeros
  rw [getD_replicate_ite]
  by_cases h : r < R
  · rw [if_pos h, getD_replicate_ite]
    by_cases hc : c < C
    · rw [if_pos hc]
    · rw [if_neg hc]
  · rw [if_neg h]
    simp

lemma mat_add_rect (A B : List (List ℝ)) (R C : ℕ)
    (hA : Rect A R C) (hB : Rect B R C) : Rect (mat_add A B) R C := by
  obtain ⟨hAl, hAr⟩ := hA
  obtain ⟨hBl, hBr⟩ := hB
  have hlen : (mat_add A B).length = R := by
    simp [mat_add, List.length_zipWith, hAl, hBl]
  refine ⟨hlen, ?_⟩
  intro i hi
  have hiA : i < A.length := by omega
  have hiB : i < B.length := by omega
  have hiAB : i < (mat_add A B).length := by omega
  rw [getD_of_lt _ _ _ hiAB]
  simp only [List.get_eq_getElem, mat_add, List.getElem_zipWith, List.length_zipWith]
  have h1 : (A.getD i []).length = C := hAr i hi
  have h2 : (B.getD i []).length = C := hBr i hi
  rw [getD_of_lt _ _ _ hiA] at h1
  rw [getD_of_lt _ _ _ hiB] at h2
  simp only [List.get_eq_getElem] at h1 h2
  rw [h1, h2, Nat.min_self]

lemma entry_mat_add (A B : List (List ℝ)) (R C : ℕ)
    (hA : Rect A R C) (hB : Rect B R C) (r c : ℕ) :
    entry (mat_add A B) r c = entry A r c + entry B r c := by
  obtain ⟨hAl, hAr⟩ := hA
  obtain ⟨hBl, hBr⟩ := hB
  by_cases hr : r < R
  · have hrA : r < A.length := by omega
    have hrB : r < B.length := by omega
    have hrAB : r < (mat_add A B).length := by
      unfold mat_add
      rw [List.length_zipWith]
      omega
    have h1 : (A.getD r []).length = C := hAr r hr
    have h2 : (B.getD r []).length = C := hBr r hr
    have hrowAB : (mat_add A B).getD r [] =
        List.zipWith (· + ·) (A.getD r []) (B.getD r []) := by
      rw [getD_of_lt _ _ _ hrAB, getD_of_lt _ _ _ hrA, getD_of_lt _ _ _ hrB]
      simp only [List.get_eq_getElem, mat_add, List.getElem_zipWith]
    unfold entry
    rw [hrowAB]
    have hzlen : (List.zipWith (· + ·) (A.getD r []) (B.getD r [])).length = C := by
      rw [List.length_zipWith, h1, h2, Nat.min_self]
    by_cases hc : c < C
    · have h1c : c < (A.getD r []).length := by omega
      have h2c : c < (B.getD r []).length := by omega
      have hzc : c < (List.zipWith (· + ·) (A.getD r []) (B.getD r [])).length := by omega
      rw [getD_of_lt _ _ _ hzc, getD_of_lt (A.getD r []) 0 c h1c,
          getD_of_lt (B.getD r []) 0 c h2c]
      simp [List.get_eq_getElem, List.getElem_zipWith]
    · have h1c : (A.getD r []).length ≤ c := by omega
      have h2c : (B.getD r []).length ≤ c := by omega
      have hzc : (List.zipWith (· + ·) (A.getD r []) (B.getD r [])).length ≤ c := by omega
      rw [getD_of_le _ _ _ hzc, getD_of_le (A.getD r []) 0 c h1c,
          getD_of_le (B.getD r []) 0 c h2c]
      norm_num
  · have hrAB : (mat_add A B).length ≤ r := by
      unfold mat_add
      rw [List.length_zipWith]
      omega
    unfold entry
    rw [getD_of_le _ _ _ hrAB, getD_of_le _ _ _ (show A.length ≤ r by omega),
        getD_of_le _ _ _ (show B.length ≤ r by omega)]
    simp

/-! ### Lengths through the correlation pipeline -/

lemma mix_carr_length (buff : List ℂ) (ix N : ℕ) (fs fc phi : ℝ) :
    (mix_carr buff ix N fs fc phi).length = N := by
  unfold mix_carr
  rw [List.length_map, List.length_range]

lemma np_fft_length (l : List ℂ) : (np_fft l).length = l.length := by
  unfold np_fft
  rw [List.length_map, List.length_range]

lemma np_ifft_length (l : List ℂ) : (np_ifft l).length = l.length := by
  unfold np_ifft
  rw [List.length_map, List.length_range]

lemma corr_fft_length (data code_fft : List ℂ) :
    (corr_fft data code_fft).length = min data.length code_fft.length := by
  unfold corr_fft
  rw [List.length_map, np_ifft_length, List.length_zipWith, np_fft_length]

lemma search_code_rect (code_fft : List ℂ) (T : ℝ) (buff : List ℂ) (ix : ℕ)
    (fs fi2 : ℝ) (fds : List ℝ)
    (hcf : (pyTrunc (fs * T)).toNat ≤ code_fft.length) :
    Rect (search_code code_fft T buff ix fs fi2 fds) fds.length
      (pyTrunc (fs * T)).toNat := by
  constructor
  · unfold search_code
    rw [List.length_map]
  · intro i hi
    have hi2 : i < (search_code code_fft T buff ix fs fi2 fds).length := by
      unfold search_code
      rw [List.length_map]
      exact hi
    rw [getD_of_lt _ _ _ hi2]
    simp only [List.get_eq_getElem]
    unfold search_code
    simp only [List.getElem_map, List.length_map, List.length_take,
      corr_fft_length, mix_carr_length]
    omega

lemma search_code_mem_nonneg (code_fft : List ℂ) (T : ℝ) (buff : List ℂ) (ix : ℕ)
    (fs fi2 : ℝ) (fds : List ℝ) (row : List ℝ)
    (h : row ∈ search_code code_fft T buff ix fs fi2 fds) : ∀ y ∈ row, 0 ≤ y := by
  unfold search_code at h
  simp only [List.mem_map] at h
  obtain ⟨fd, _, hrow⟩ := h
  intro y hy
  rw [← hrow] at hy
  simp only [List.mem_map] at hy
  obtain ⟨z, _, hz⟩ := hy
  rw [← hz]
  positivity

lemma search_code_entry_nonneg (code_fft : List ℂ) (T : ℝ) (buff : List ℂ) (ix : ℕ)
    (fs fi2 : ℝ) (fds : List ℝ) (r c : ℕ) :
    0 ≤ entry (search_code code_fft T buff ix fs fi2 fds) r c := by
  unfold entry
  refine getD_nonneg_of_nonneg _ _ ?_
  intro y hy
  rcases getD_mem_or_default (search_code code_fft T buff ix fs fi2 fds) [] r with hm | hd
  · exact search_code_mem_nonneg code_fft T buff ix fs fi2 fds _ hm y hy
  · rw [hd] at hy
    simp at hy

/-! ### The accumulation fold -/

lemma foldl_mat_add_rect (sc : ℕ → List (List ℝ)) (R C : ℕ)
    (hsc : ∀ i, Rect (sc i) R C) (bs : List ℕ) :
    ∀ z, Rect z R C → Rect (bs.foldl (fun acc i => mat_add acc (sc i)) z) R C := by
  induction bs with
  | nil => intro z hz; exact hz
  | cons b t ih =>
    intro z hz
    exact ih _ (mat_add_rect _ _ _ _ hz (hsc b))

lemma foldl_mat_add_entry (sc : ℕ → List (List ℝ)) (R C : ℕ)
    (hsc : ∀ i, Rect (sc i) R C) (bs : List ℕ) (r c : ℕ) :
    ∀ z, Rect z R C →
      entry (bs.foldl (fun acc i => mat_add acc (sc i)) z) r c =
        entry z r c + (bs.map (fun i => entry (sc i) r c)).sum := by
  induction bs with
  | nil => intro z _; simp
  | cons b t ih =>
    intro z hz
    simp only [List.foldl_cons, List.map_cons, List.sum_cons]
    rw [ih _ (mat_add_rect _ _ _ _ hz (hsc b)),
        entry_mat_add _ _ _ _ hz (hsc b)]
    ring

/-! ### Quadratic fit lemmas -/

lemma polyfit3_interp (x0 x1 x2 y0 y1 y2 : ℝ)
    (h01 : x0 ≠ x1) (h12 : x1 ≠ x2) (h02 : x0 ≠ x2) :
    (polyfit3 x0 x1 x2 y0 y1 y2).1 * x0 ^ 2 + (polyfit3 x0 x1 x2 y0 y1 y2).2.1 * x0 +
        (polyfit3 x0 x1 x2 y0 y1 y2).2.2 = y0 ∧
    (polyfit3 x0 x1 x2 y0 y1 y2).1 * x1 ^ 2 + (polyfit3 x0 x1 x2 y0 y1 y2).2.1 * x1 +
        (polyfit3 x0 x1 x2 y0 y1 y2).2.2 = y1 ∧
    (polyfit3 x0 x1 x2 y0 y1 y2).1 * x2 ^ 2 + (polyfit3 x0 x1 x2 y0 y1 y2).2.1 * x2 +
        (polyfit3 x0 x1 x2 y0 y1 y2).2.2 = y2 := by
  have d01 : x0 - x1 ≠ 0 := sub_ne_zero.mpr h01
  have d12 : x1 - x2 ≠ 0 := sub_ne_zero.mpr h12
  have d02 : x0 - x2 ≠ 0 := sub_ne_zero.mpr h02
  have d10 : x1 - x0 ≠ 0 := sub_ne_zero.mpr (Ne.symm h01)
  have d21 : x2 - x1 ≠ 0 := sub_ne_zero.mpr (Ne.symm h12)
  have d20 : x2 - x0 ≠ 0 := sub_ne_zero.mpr (Ne.symm h02)
  unfold polyfit3
  refine ⟨?_, ?_, ?_⟩ <;>
    (field_simp
     ring)

lemma quad_unique (x0 x1 x2 a b c a2 b2 c2 : ℝ)
    (h01 : x0 ≠ x1) (h12 : x1 ≠ x2) (h02 : x0 ≠ x2)
    (e0 : a * x0 ^ 2 + b * x0 + c = a2 * x0 ^ 2 + b2 * x0 + c2)
    (e1 : a * x1 ^ 2 + b * x1 + c = a2 * x1 ^ 2 + b2 * x1 + c2)
    (e2 : a * x2 ^ 2 + b * x2 + c = a2 * x2 ^ 2 + b2 * x2 + c2) :
    a = a2 ∧ b = b2 ∧ c = c2 := by
  have h01s : x0 - x1 ≠ 0 := sub_ne_zero.mpr h01
  have h12s : x1 - x2 ≠ 0 := sub_ne_zero.mpr h12
  have h02s : x0 - x2 ≠ 0 := sub_ne_zero.mpr h02
  have k0 : (x0 - x1) * ((a - a2) * (x0 + x1) + (b - b2)) = 0 := by
    linear_combination e0 - e1
  have k1 : (x1 - x2) * ((a - a2) * (x1 + x2) + (b - b2)) = 0 := by
    linear_combination e1 - e2
  have m0 : (a - a2) * (x0 + x1) + (b - b2) = 0 :=
    (mul_eq_zero.mp k0).resolve_left h01s
  have m1 : (a - a2) * (x1 + x2) + (b - b2) = 0 :=
    (mul_eq_zero.mp k1).resolve_left h12s
  have ka : (a - a2) * (x0 - x2) = 0 := by linear_combination m0 - m1
  have ha : a = a2 := by
    have := (mul_eq_zero.mp ka).resolve_right h02s
    linarith
  have hb : b = b2 := by
    have := m0
    rw [ha] at this
    simp at this
    linarith
  refine ⟨ha, hb, ?_⟩
  linear_combination e0 - x0 ^ 2 * ha - x0 * hb

/-- Claim C10: `fine_dop(P, fds, ix)` is total for every index `0 ≤ ix < len(fds)`
even on grids with fewer than 3 bins: the boundary branch covers every index of a
grid of length 1 or 2, and the interior branch only runs when `ix-1`, `ix` and
`ix+1` are all in range, so no out-of-bounds access occurs. -/
theorem fine_dop_total (P fds : List ℝ) (ix : ℕ) (h : ix < fds.length) :
    (fds.length ≤ 2 → fine_dop P fds ix = fds.getD ix 0) ∧
    (¬(ix = 0 ∨ ix = fds.length - 1) →
      1 ≤ ix ∧ ix - 1 < fds.length ∧ ix < fds.length ∧ ix + 1 < fds.length) := by
  constructor
  · intro hlen
    have hb : ix = 0 ∨ ix = fds.length - 1 := by omega
    unfold fine_dop
    rw [if_pos hb]
  · intro hnot
    push_neg at hnot
    omega

/-- Witness for `fine_dop_total` at `P = [0]`, `fds = [1, 2]`, `ix = 1`. -/
theorem fine_dop_total_witness :
    (([(1 : ℝ), 2].length ≤ 2 → fine_dop [0] [1, 2] 1 = [(1 : ℝ), 2].getD 1 0) ∧
    (¬(1 = 0 ∨ 1 = [(1 : ℝ), 2].length - 1) →
      1 ≤ 1 ∧ 1 - 1 < [(1 : ℝ), 2].length ∧ 1 < [(1 : ℝ), 2].length ∧
        1 + 1 < [(1 : ℝ), 2].length)) :=
  fine_dop_total [0] [1, 2] 1 (by simp)

/-- Claim C3: for `0 ≤ ix < len(fds)`, `fine_dop` returns `fds[ix]` unchanged when
`ix` is a boundary index; otherwise (for pairwise distinct abscissae) it returns
the vertex `-b/(2a)` of the unique parabola `a*f^2 + b*f + c` through the three
points `(fds[ix-1], P[ix-1])`, `(fds[ix], P[ix])`, `(fds[ix+1], P[ix+1])`. -/
theorem fine_dop_spec (P fds : List ℝ) (ix : ℕ) (h : ix < fds.length) :
    ((ix = 0 ∨ ix = fds.length - 1) → fine_dop P fds ix = fds.getD ix 0) ∧
    (¬(ix = 0 ∨ ix = fds.length - 1) →
      fds.getD (ix - 1) 0 ≠ fds.getD ix 0 →
      fds.getD ix 0 ≠ fds.getD (ix + 1) 0 →
      fds.getD (ix - 1) 0 ≠ fds.getD (ix + 1) 0 →
      ∃ a b c : ℝ,
        (a * fds.getD (ix - 1) 0 ^ 2 + b * fds.getD (ix - 1) 0 + c = P.getD (ix - 1) 0 ∧
         a * fds.getD ix 0 ^ 2 + b * fds.getD ix 0 + c = P.getD ix 0 ∧
         a * fds.getD (ix + 1) 0 ^ 2 + b * fds.getD (ix + 1) 0 + c = P.getD (ix + 1) 0) ∧
        (∀ a2 b2 c2 : ℝ,
          (a2 * fds.getD (ix - 1) 0 ^ 2 + b2 * fds.getD (ix - 1) 0 + c2 = P.getD (ix - 1) 0 ∧
           a2 * fds.getD ix 0 ^ 2 + b2 * fds.getD ix 0 + c2 = P.getD ix 0 ∧
           a2 * fds.getD (ix + 1) 0 ^ 2 + b2 * fds.getD (ix + 1) 0 + c2 = P.getD (ix + 1) 0) →
          a2 = a ∧ b2 = b ∧ c2 = c) ∧
        fine_dop P fds ix = -b / (2 * a)) := by
  constructor
  · intro hb
    unfold fine_dop
    rw [if_pos hb]
  · intro hnot h01 h12 h02
    refine ⟨(polyfit3 (fds.getD (ix - 1) 0) (fds.getD ix 0) (fds.getD (ix + 1) 0)
              (P.getD (ix - 1) 0) (P.getD ix 0) (P.getD (ix + 1) 0)).1,
            (polyfit3 (fds.getD (ix - 1) 0) (fds.getD ix 0) (fds.getD (ix + 1) 0)
              (P.getD (ix - 1) 0) (P.getD ix 0) (P.getD (ix + 1) 0)).2.1,
            (polyfit3 (fds.getD (ix - 1) 0) (fds.getD ix 0) (fds.getD (ix + 1) 0)
              (P.getD (ix - 1) 0) (P.getD ix 0) (P.getD (ix + 1) 0)).2.2, ?_, ?_, ?_⟩
    · exact polyfit3_interp _ _ _ _ _ _ h01 h12 h02
    · intro a2 b2 c2 hint
      obtain ⟨i0, i1, i2⟩ := polyfit3_interp (fds.getD (ix - 1) 0) (fds.getD ix 0)
        (fds.getD (ix + 1) 0) (P.getD (ix - 1) 0) (P.getD ix 0) (P.getD (ix + 1) 0)
        h01 h12 h02
      exact quad_unique _ _ _ _ _ _ _ _ _ h01 h12 h02
        (by rw [hint.1, i0]) (by rw [hint.2.1, i1]) (by rw [hint.2.2, i2])
    · unfold fine_dop
      rw [if_neg hnot]

/-- Witness for `fine_dop_spec` at `P = [0, 1, 0]`, `fds = [0, 1, 2]`, `ix = 1`:
the interpolating parabola exists and `fine_dop` returns its vertex. -/
theorem fine_dop_spec_witness :
    ∃ a b c : ℝ,
      (a * 0 ^ 2 + b * 0 + c = 0 ∧ a * 1 ^ 2 + b * 1 + c = 1 ∧
        a * 2 ^ 2 + b * 2 + c = 0) ∧
      fine_dop [0, 1, 0] [0, 1, 2] 1 = -b / (2 * a) := by
  have hlen : (1 : ℕ) < [(0 : ℝ), 1, 2].length := by simp
  have h := (fine_dop_spec [0, 1, 0] [0, 1, 2] 1 hlen).2
    (by simp) (by norm_num) (by norm_num) (by norm_num)
  obtain ⟨a, b, c, hint, _, heq⟩ := h
  refine ⟨a, b, c, ?_, ?_⟩
  · simpa using hint
  · exact heq

/-- Claim C5: when the external code generator yields an empty code replica,
`search_sig` returns the explicit empty result (empty power surface, one-element
grids, peak index `(0, 0)`, C/N0 `0.0`, Doppler `0.0`) without raising. -/
theorem search_sig_empty_code (gen_code : String → ℤ → List ℤ) (code_cyc : String → ℝ)
    (gen_code_fft : List ℤ → ℝ → ℝ → ℝ → ℕ → ℕ → List ℂ)
    (sig : String) (prn : ℤ) (data : List ℂ) (fs fi max_dop : ℝ) (zero_pad : Bool)
    (h : gen_code sig prn = []) :
    search_sig gen_code code_cyc gen_code_fft sig prn data fs fi max_dop zero_pad =
      some ⟨[], [0], [0], (0, 0), 0, 0⟩ := by
  unfold search_sig
  rw [h]
  simp

/-- Witness for `search_sig_empty_code` with a generator that always returns
the empty replica. -/
theorem search_sig_empty_code_witness :
    search_sig (fun _ _ => []) (fun _ => 1) (fun _ _ _ _ _ _ => [1])
      "L1CA" 1 [] 1 0 1 true = some ⟨[], [0], [0], (0, 0), 0, 0⟩ :=
  search_sig_empty_code (fun _ _ => []) (fun _ => 1) (fun _ _ _ _ _ _ => [1])
    "L1CA" 1 [] 1 0 1 true rfl

/-! ### Doppler grid lemmas -/

lemma dop_bins_length (T max_dop : ℝ) (hT : 0 < T) (hm : 0 < max_dop) :
    (dop_bins T max_dop).length = (⌈2 * max_dop / (DOP_STEP / T)⌉).toNat + 1 := by
  have hs : 0 < DOP_STEP / T := by
    unfold DOP_STEP
    positivity
  unfold dop_bins
  rw [arange_length]
  have hD : (DOP_STEP : ℝ) ≠ 0 := by
    unfold DOP_STEP
    norm_num
  have hT0 : T ≠ 0 := ne_of_gt hT
  have harg : (max_dop + DOP_STEP / T - -max_dop) / (DOP_STEP / T) =
      2 * max_dop / (DOP_STEP / T) + 1 := by
    field_simp
    ring
  rw [harg]
  have hceil : ⌈2 * max_dop / (DOP_STEP / T) + 1⌉ = ⌈2 * max_dop / (DOP_STEP / T)⌉ + 1 := by
    exact_mod_cast Int.ceil_add_int (2 * max_dop / (DOP_STEP / T)) 1
  rw [hceil]
  have hpos : 0 < ⌈2 * max_dop / (DOP_STEP / T)⌉ := by
    rw [Int.ceil_pos]
    positivity
  omega

lemma dop_bins_getD (T max_dop : ℝ) (hT : 0 < T) (hm : 0 < max_dop) (i : ℕ)
    (hi : i < (dop_bins T max_dop).length) :
    (dop_bins T max_dop).getD i 0 = -max_dop + i * (DOP_STEP / T) := by
  unfold dop_bins
  apply arange_getD
  unfold dop_bins at hi
  rw [arange_length] at hi
  exact hi

/-- Claim C2: for `T > 0` and `max_dop > 0` the grid `dop_bins(T, max_dop)` is
monotonically increasing with constant step `DOP_STEP / T`, symmetric about 0
within one step, and covers `max_dop`: its last element is at least `max_dop`
and exceeds it by less than one step (so it is within `DOP_STEP / T` of
`max_dop`). -/
theorem dop_bins_spec (T max_dop : ℝ) (hT : 0 < T) (hm : 0 < max_dop) :
    2 ≤ (dop_bins T max_dop).length ∧
    (∀ i, i + 1 < (dop_bins T max_dop).length →
      (dop_bins T max_dop).getD (i + 1) 0 =
        (dop_bins T max_dop).getD i 0 + DOP_STEP / T) ∧
    (∀ i j, i < j → j < (dop_bins T max_dop).length →
      (dop_bins T max_dop).getD i 0 < (dop_bins T max_dop).getD j 0) ∧
    (∀ i, i < (dop_bins T max_dop).length →
      |(dop_bins T max_dop).getD i 0 +
        (dop_bins T max_dop).getD ((dop_bins T max_dop).length - 1 - i) 0| <
        DOP_STEP / T) ∧
    max_dop ≤ (dop_bins T max_dop).getD ((dop_bins T max_dop).length - 1) 0 ∧
    (dop_bins T max_dop).getD ((dop_bins T max_dop).length - 1) 0 - max_dop <
      DOP_STEP / T := by
  have hs : 0 < DOP_STEP / T := by
    unfold DOP_STEP
    positivity
  have hlen := dop_bins_length T max_dop hT hm
  have hcpos : 0 < ⌈2 * max_dop / (DOP_STEP / T)⌉ := by
    rw [Int.ceil_pos]
    positivity
  have hcle : 2 * max_dop / (DOP_STEP / T) ≤ (⌈2 * max_dop / (DOP_STEP / T)⌉ : ℝ) :=
    Int.le_ceil _
  have hclt : (⌈2 * max_dop / (DOP_STEP / T)⌉ : ℝ) < 2 * max_dop / (DOP_STEP / T) + 1 :=
    Int.ceil_lt_add_one _
  have hc1 : 2 * max_dop ≤ (⌈2 * max_dop / (DOP_STEP / T)⌉ : ℝ) * (DOP_STEP / T) := by
    rw [div_le_iff hs] at hcle
    exact hcle
  have hc2 : (⌈2 * max_dop / (DOP_STEP / T)⌉ : ℝ) * (DOP_STEP / T) <
      2 * max_dop + DOP_STEP / T := by
    have h2 := mul_lt_mul_of_pos_right hclt hs
    rw [add_mul, div_mul_cancel₀ _ (ne_of_gt hs), one_mul] at h2
    exact h2
  have hcast : (((dop_bins T max_dop).length - 1 : ℕ) : ℝ) =
      (⌈2 * max_dop / (DOP_STEP / T)⌉ : ℝ) := by
    rw [hlen]
    simp only [Nat.add_sub_cancel]
    exact_mod_cast Int.toNat_of_nonneg (le_of_lt hcpos)
  have hlast : (dop_bins T max_dop).getD ((dop_bins T max_dop).length - 1) 0 =
      -max_dop + (⌈2 * max_dop / (DOP_STEP / T)⌉ : ℝ) * (DOP_STEP / T) := by
    rw [dop_bins_getD T max_dop hT hm _ (by omega), hcast]
  refine ⟨by omega, ?_, ?_, ?_, ?_, ?_⟩
  · intro i hi
    rw [dop_bins_getD T max_dop hT hm _ hi, dop_bins_getD T max_dop hT hm _ (by omega)]
    push_cast
    ring
  · intro i j hij hj
    rw [dop_bins_getD T max_dop hT hm _ hj, dop_bins_getD T max_dop hT hm _ (by omega)]
    have hij2 : (i : ℝ) < (j : ℝ) := by exact_mod_cast hij
    nlinarith
  · intro i hi
    have hi2 : (dop_bins T max_dop).length - 1 - i < (dop_bins T max_dop).length := by
      omega
    rw [dop_bins_getD T max_dop hT hm _ hi, dop_bins_getD T max_dop hT hm _ hi2]
    have hsum : ((i : ℝ)) + (((dop_bins T max_dop).length - 1 - i : ℕ) : ℝ) =
        (((dop_bins T max_dop).length - 1 : ℕ) : ℝ) := by
      have hle : i ≤ (dop_bins T max_dop).length - 1 := by omega
      push_cast [Nat.cast_sub hle]
      ring
    rw [abs_lt]
    constructor
    · nlinarith [hsum, hcast, hc1, hc2]
    · nlinarith [hsum, hcast, hc1, hc2]
  · rw [hlast]
    linarith
  · rw [hlast]
    linarith

/-- Witness for `dop_bins_spec` at `T = 1`, `max_dop = 1`. -/
theorem dop_bins_spec_witness :
    2 ≤ (dop_bins 1 1).length ∧
    (∀ i, i + 1 < (dop_bins 1 1).length →
      (dop_bins 1 1).getD (i + 1) 0 = (dop_bins 1 1).getD i 0 + DOP_STEP / 1) ∧
    (∀ i j, i < j → j < (dop_bins 1 1).length →
      (dop_bins 1 1).getD i 0 < (dop_bins 1 1).getD j 0) ∧
    (∀ i, i < (dop_bins 1 1).length →
      |(dop_bins 1 1).getD i 0 +
        (dop_bins 1 1).getD ((dop_bins 1 1).length - 1 - i) 0| < DOP_STEP / 1) ∧
    (1 : ℝ) ≤ (dop_bins 1 1).getD ((dop_bins 1 1).length - 1) 0 ∧
    (dop_bins 1 1).getD ((dop_bins 1 1).length - 1) 0 - 1 < DOP_STEP / 1 :=
  dop_bins_spec 1 1 (by norm_num) (by norm_num)

/-! ### `corr_max` lemmas -/

lemma np_argmax_replicate (x : ℝ) : ∀ n, np_argmax (List.replicate n x) = 0
  | 0 => rfl
  | 1 => rfl
  | (n + 2) => by
    have ih := np_argmax_replicate x (n + 1)
    show np_argmax (x :: x :: List.replicate n x) = 0
    unfold np_argmax
    have hrep : x :: List.replicate n x = List.replicate (n + 1) x :=
      (List.replicate_succ x n).symm
    rw [hrep, ih]
    simp [getD_replicate_ite]

lemma ncols_of_rect (P : List (List ℝ)) (R C : ℕ) (hR : 0 < R)
    (hlen : P.length = R) (hrow : ∀ row ∈ P, row.length = C) : ncols P = C := by
  cases P with
  | nil => simp at hlen; omega
  | cons r t =>
    unfold ncols
    exact hrow r (by simp)

lemma entry_eq_flat_getD (P : List (List ℝ)) (R C : ℕ) (hC : 0 < C)
    (hlen : P.length = R) (hrow : ∀ row ∈ P, row.length = C)
    (r c : ℕ) (hr : r < R) (hc : c < C) :
    entry P r c = (flat P).getD (r * C + c) 0 := by
  have hk : r * C + c < P.length * C := by
    rw [hlen]
    calc r * C + c < r * C + C := by omega
    _ = (r + 1) * C := by ring
    _ ≤ R * C := Nat.mul_le_mul_right C (by omega)
  rw [flat_getD P C hC hrow _ hk]
  have hdiv : (r * C + c) / C = r := by
    rw [Nat.add_comm, Nat.add_mul_div_right c r hC, Nat.div_eq_of_lt hc]
    omega
  have hmod : (r * C + c) % C = c := by
    rw [Nat.add_comm, Nat.add_mul_mod_self_right, Nat.mod_eq_of_lt hc]
  rw [hdiv, hmod]

/-- Claim C1 (amended): for every nonempty rectangular surface `P` and `T > 0`,
`corr_max` returns the global maximum value at the returned in-range index;
when `P_ave ≤ 0` it returns `cn0 = 0.0` without raising; when `P_ave > 0` and
`P_max > P_ave` it returns `cn0 = 10*log10((P_max - P_ave)/P_ave/T)`; but when
`P_ave > 0` and `P_max = P_ave` (uniform positive surface) `math.log10` is
called on 0 and the call raises a math domain error instead of returning. -/
theorem corr_max_spec (P : List (List ℝ)) (T : ℝ) (R C : ℕ)
    (hR : 0 < R) (hC : 0 < C)
    (hlen : P.length = R) (hrow : ∀ row ∈ P, row.length = C)
    (hT : 0 < T) :
    ((corr_max_ix P).1 < R ∧ (corr_max_ix P).2 < C) ∧
    (∀ r c, r < R → c < C → entry P r c ≤ corr_max_val P) ∧
    (np_mean (flat P) ≤ 0 →
      corr_max P T = some (corr_max_val P, corr_max_ix P, 0)) ∧
    (0 < np_mean (flat P) → np_mean (flat P) < corr_max_val P →
      corr_max P T = some (corr_max_val P, corr_max_ix P,
        10 * Real.logb 10 ((corr_max_val P - np_mean (flat P)) / np_mean (flat P) / T))) ∧
    (0 < np_mean (flat P) → corr_max_val P = np_mean (flat P) →
      corr_max P T = none) := by
  have hflatlen : (flat P).length = R * C := by
    rw [flat_length P C hrow, hlen]
  have hflatpos : 0 < (flat P).length := by
    rw [hflatlen]
    exact Nat.mul_pos hR hC
  have hflatne : flat P ≠ [] := List.ne_nil_of_length_pos hflatpos
  have hj : np_argmax (flat P) < R * C := by
    rw [← hflatlen]
    exact np_argmax_lt _ hflatne
  have hncols : ncols P = C := ncols_of_rect P R C hR hlen hrow
  have hix : corr_max_ix P = (np_argmax (flat P) / C, np_argmax (flat P) % C) := by
    unfold corr_max_ix unravel
    rw [hncols]
  have hix1 : (corr_max_ix P).1 < R := by
    rw [hix]
    exact (Nat.div_lt_iff_lt_mul hC).mpr (by omega)
  have hix2 : (corr_max_ix P).2 < C := by
    rw [hix]
    exact Nat.mod_lt _ hC
  have hval : corr_max_val P = (flat P).getD (np_argmax (flat P)) 0 := by
    have hflat := flat_getD P C hC hrow (np_argmax (flat P)) (by rw [hlen]; omega)
    unfold corr_max_val
    rw [hix]
    exact hflat.symm
  refine ⟨⟨hix1, hix2⟩, ?_, ?_, ?_, ?_⟩
  · intro r c hr hc
    rw [entry_eq_flat_getD P R C hC hlen hrow r c hr hc, hval]
    have hkmem : (flat P).getD (r * C + c) 0 ∈ flat P := by
      have hk : r * C + c < (flat P).length := by
        rw [hflatlen]
        calc r * C + c < r * C + C := by omega
        _ = (r + 1) * C := by ring
        _ ≤ R * C := Nat.mul_le_mul_right C (by omega)
      rw [getD_of_lt _ _ _ hk]
      exact List.get_mem _ _ _
    exact np_argmax_is_max (flat P) _ hkmem
  · intro hmean
    unfold corr_max
    rw [if_neg (not_lt.mpr hmean)]
  · intro hmean hlt
    have hx : 0 < (corr_max_val P - np_mean (flat P)) / np_mean (flat P) / T :=
      div_pos (div_pos (by linarith) hmean) hT
    unfold corr_max math_log10
    rw [if_pos hmean, if_pos hx]
    rfl
  · intro hmean heq
    have hx : ¬ (0 : ℝ) < (corr_max_val P - np_mean (flat P)) / np_mean (flat P) / T := by
      rw [heq]
      simp
    unfold corr_max math_log10
    rw [if_pos hmean, if_neg hx]
    rfl

/-- Counterexample to claim C1 as stated: on the uniform positive surface
`[[1, 1], [1, 1]]` with `T = 1` the mean is positive, yet `corr_max` does not
return — `math.log10` is called on `(P_max - P_ave)/P_ave/T = 0` and raises a
math domain error (modelled by `none`). -/
theorem corr_max_uniform_raises :
    0 < np_mean (flat [[(1 : ℝ), 1], [1, 1]]) ∧
    corr_max [[(1 : ℝ), 1], [1, 1]] 1 = none := by
  have hmean : np_mean (flat [[(1 : ℝ), 1], [1, 1]]) = 1 := by
    unfold np_mean flat
    norm_num
  have hargmax : np_argmax (flat [[(1 : ℝ), 1], [1, 1]]) = 0 := by
    have hfl : flat [[(1 : ℝ), 1], [1, 1]] = List.replicate 4 1 := rfl
    rw [hfl, np_argmax_replicate]
  have hval : corr_max_val [[(1 : ℝ), 1], [1, 1]] = 1 := by
    unfold corr_max_val corr_max_ix
    rw [hargmax]
    unfold unravel ncols entry
    norm_num
  constructor
  · rw [hmean]
    norm_num
  · unfold corr_max math_log10
    rw [hmean, hval]
    norm_num

/-- Witness for `corr_max_spec` at `P = [[0, 2], [1, 0]]`, `T = 1`. -/
theorem corr_max_spec_witness :
    ((corr_max_ix [[(0 : ℝ), 2], [1, 0]]).1 < 2 ∧
      (corr_max_ix [[(0 : ℝ), 2], [1, 0]]).2 < 2) ∧
    (∀ r c, r < 2 → c < 2 →
      entry [[(0 : ℝ), 2], [1, 0]] r c ≤ corr_max_val [[(0 : ℝ), 2], [1, 0]]) ∧
    (np_mean (flat [[(0 : ℝ), 2], [1, 0]]) ≤ 0 →
      corr_max [[(0 : ℝ), 2], [1, 0]] 1 =
        some (corr_max_val [[(0 : ℝ), 2], [1, 0]], corr_max_ix [[(0 : ℝ), 2], [1, 0]], 0)) ∧
    (0 < np_mean (flat [[(0 : ℝ), 2], [1, 0]]) →
      np_mean (flat [[(0 : ℝ), 2], [1, 0]]) < corr_max_val [[(0 : ℝ), 2], [1, 0]] →
      corr_max [[(0 : ℝ), 2], [1, 0]] 1 =
        some (corr_max_val [[(0 : ℝ), 2], [1, 0]], corr_max_ix [[(0 : ℝ), 2], [1, 0]],
          10 * Real.logb 10 ((corr_max_val [[(0 : ℝ), 2], [1, 0]] -
            np_mean (flat [[(0 : ℝ), 2], [1, 0]])) / np_mean (flat [[(0 : ℝ), 2], [1, 0]]) / 1))) ∧
    (0 < np_mean (flat [[(0 : ℝ), 2], [1, 0]]) →
      corr_max_val [[(0 : ℝ), 2], [1, 0]] = np_mean (flat [[(0 : ℝ), 2], [1, 0]]) →
      corr_max [[(0 : ℝ), 2], [1, 0]] 1 = none) :=
  corr_max_spec [[(0 : ℝ), 2], [1, 0]] 1 2 2 (by norm_num) (by norm_num) (by simp)
    (by intro row hrow
        simp only [List.mem_cons, List.mem_singleton] at hrow
        rcases hrow with rfl | hrow
        · simp
        · rcases hrow with rfl | hrow
          · simp
          · simp at hrow)
    (by norm_num)

/-! ### `mix_carr` theorems -/

/-- Claim C7 (amended): the reference `mix_carr(buff, ix, N, fs, fc, phi)` has
output length `N`, and its `n`-th element is `buff[ix+n]` times the 256-entry
unit-circle table entry `exp(-2j*pi*k/256)` at `k = trunc((fc/fs*n + phi)*256) mod 256`
(the float-to-int cast `astype(int)` truncates toward zero; the claim said
`round`). -/
theorem mix_carr_spec (buff : List ℂ) (ix N : ℕ) (fs fc phi : ℝ)
    (hfs : 0 < fs) (hb : ix + N ≤ buff.length) :
    (mix_carr buff ix N fs fc phi).length = N ∧
    ∀ n, n < N →
      (0 ≤ pyTrunc ((fc / fs * n + phi) * 256) % 256 ∧
       pyTrunc ((fc / fs * n + phi) * 256) % 256 < 256) ∧
      (mix_carr buff ix N fs fc phi).getD n 0 =
        buff.getD (ix + n) 0 *
          Complex.exp (-(2 * (Real.pi : ℂ) * Complex.I *
            ((pyTrunc ((fc / fs * n + phi) * 256) % 256 : ℤ) : ℂ)) / 256) := by
  refine ⟨mix_carr_length buff ix N fs fc phi, ?_⟩
  intro n hn
  refine ⟨⟨Int.emod_nonneg _ (by norm_num), Int.emod_lt_of_pos _ (by norm_num)⟩, ?_⟩
  have hlt : n < (mix_carr buff ix N fs fc phi).length := by
    rw [mix_carr_length]
    exact hn
  rw [getD_of_lt _ _ _ hlt]
  simp only [List.get_eq_getElem]
  unfold mix_carr carr_tbl
  rw [List.getElem_map, List.getElem_range]

/-- Counterexample to claim C7 as stated: at `buff = [1]`, `ix = 0`, `N = 1`,
`fs = 1`, `fc = 0`, `phi = 0.7/256` the lookup index in the code is
`trunc(0.7) = 0` (so the output element is `1`), while the claimed index is
`round(0.7) = 1`, whose table entry `exp(-2j*pi/256)` is not `1`. -/
theorem mix_carr_trunc_vs_round :
    mix_carr [1] 0 1 1 0 (7 / 2560) = [1] ∧
    round (((0 : ℝ) / 1 * 0 + 7 / 2560) * 256) = 1 ∧
    (1 : ℂ) * Complex.exp (-(2 * (Real.pi : ℂ) * Complex.I * ((1 : ℤ) : ℂ)) / 256) ≠ 1 := by
  refine ⟨?_, ?_, ?_⟩
  · unfold mix_carr
    have hr1 : List.range 1 = [0] := rfl
    rw [hr1, List.map_singleton]
    have htr : pyTrunc ((0 / 1 * (0 : ℕ) + 7 / 2560) * 256) = 0 := by
      unfold pyTrunc
      norm_num
    rw [htr]
    unfold carr_tbl
    norm_num [Complex.exp_zero]
  · rw [round_eq]
    norm_num
  · rw [one_mul]
    intro hcontra
    obtain ⟨k, hk⟩ := Complex.exp_eq_one_iff.mp hcontra
    have hpi : (2 : ℂ) * (Real.pi : ℂ) * Complex.I ≠ 0 := by
      simp only [ne_eq, mul_eq_zero, Complex.I_ne_zero, or_false, not_or]
      norm_num [Complex.ofReal_eq_zero, Real.pi_ne_zero]
    have hzero : (2 * (Real.pi : ℂ) * Complex.I) * ((k : ℂ) * 256 + 1) = 0 := by
      have h256 : (k : ℂ) * (2 * (Real.pi : ℂ) * Complex.I) * 256 =
          -(2 * (Real.pi : ℂ) * Complex.I) := by
        rw [← hk]
        ring
      linear_combination h256
    have hk2 : (k : ℂ) * 256 + 1 = 0 := by
      rcases mul_eq_zero.mp hzero with h | h
      · exact absurd h hpi
      · exact h
    have hk3 : ((k * 256 + 1 : ℤ) : ℂ) = 0 := by
      push_cast
      linear_combination hk2
    have hk4 : k * 256 + 1 = 0 := by exact_mod_cast hk3
    omega

/-- Witness for `mix_carr_spec` at `buff = [1, 1]`, `ix = 0`, `N = 2`, `fs = 1`,
`fc = 0`, `phi = 0`. -/
theorem mix_carr_spec_witness :
    (mix_carr [1, 1] 0 2 1 0 0).length = 2 ∧
    ∀ n : ℕ, n < 2 →
      (0 ≤ pyTrunc (((0 : ℝ) / 1 * n + 0) * 256) % 256 ∧
       pyTrunc (((0 : ℝ) / 1 * n + 0) * 256) % 256 < 256) ∧
      (mix_carr [1, 1] 0 2 1 0 0).getD n 0 =
        [(1 : ℂ), 1].getD (0 + n) 0 *
          Complex.exp (-(2 * (Real.pi : ℂ) * Complex.I *
            ((pyTrunc (((0 : ℝ) / 1 * n + 0) * 256) % 256 : ℤ) : ℂ)) / 256) :=
  mix_carr_spec [1, 1] 0 2 1 0 0 (by norm_num) (by simp)

/-! ### The block loop of `search_sig` -/

/-- Claim C4: `search_sig` processes exactly the blocks at offsets
`i = 0, N, 2N, ...` with `i + len(code_fft) ≤ len(data)` (blocks that would
extend past the buffer are not processed), and accumulates each per-block power
surface into the running total by elementwise summation. -/
theorem search_sig_blocks (code_fft : List ℂ) (T : ℝ) (data : List ℂ)
    (fs fi2 : ℝ) (fds : List ℝ)
    (hN : 1 ≤ (pyTrunc (fs * T)).toNat)
    (hcf : (pyTrunc (fs * T)).toNat ≤ code_fft.length) :
    (∀ i : ℕ,
      i ∈ py_range ((data.length : ℤ) - code_fft.length + 1) (pyTrunc (fs * T)).toNat ↔
        ((∃ k, i = k * (pyTrunc (fs * T)).toNat) ∧ i + code_fft.length ≤ data.length)) ∧
    (∀ r c : ℕ,
      entry (search_sig_P code_fft T data fs fi2 fds) r c =
        ((py_range ((data.length : ℤ) - code_fft.length + 1) (pyTrunc (fs * T)).toNat).map
          (fun i => entry (search_code code_fft T data i fs fi2 fds) r c)).sum) := by
  constructor
  · intro i
    rw [py_range_mem _ _ hN i]
    constructor
    · rintro ⟨hk, hlt⟩
      exact ⟨hk, by omega⟩
    · rintro ⟨hk, hle⟩
      exact ⟨hk, by omega⟩
  · intro r c
    have h := foldl_mat_add_entry (fun i => search_code code_fft T data i fs fi2 fds)
      fds.length (pyTrunc (fs * T)).toNat
      (fun i => search_code_rect code_fft T data i fs fi2 fds hcf)
      (py_range ((data.length : ℤ) - code_fft.length + 1) (pyTrunc (fs * T)).toNat) r c
      (zeros fds.length (pyTrunc (fs * T)).toNat) (zeros_rect _ _)
    simp only [search_sig_P]
    rw [h, entry_zeros, zero_add]

/-- Witness for `search_sig_blocks` at `code_fft = [1]`, `T = 1`, `data = []`,
`fs = 1`, `fi = 0`, `fds = [0]`. -/
theorem search_sig_blocks_witness :
    (∀ i : ℕ,
      i ∈ py_range ((([] : List ℂ).length : ℤ) - [(1 : ℂ)].length + 1)
          (pyTrunc ((1 : ℝ) * 1)).toNat ↔
        ((∃ k, i = k * (pyTrunc ((1 : ℝ) * 1)).toNat) ∧
          i + [(1 : ℂ)].length ≤ ([] : List ℂ).length)) ∧
    (∀ r c : ℕ,
      entry (search_sig_P [1] 1 [] 1 0 [0]) r c =
        ((py_range ((([] : List ℂ).length : ℤ) - [(1 : ℂ)].length + 1)
            (pyTrunc ((1 : ℝ) * 1)).toNat).map
          (fun i => entry (search_code [1] 1 [] i 1 0 [0]) r c)).sum) :=
  search_sig_blocks [1] 1 [] 1 0 [0]
    (by unfold pyTrunc; norm_num) (by unfold pyTrunc; norm_num)

/-- Claim C9: every entry of the running power surface of `search_sig` is
non-negative, and each accumulation step (adding one per-block surface from
`search_code`, whose entries are squared magnitudes) leaves every entry greater
than or equal to its previous value; after all blocks the running total is the
accumulated surface of `search_sig`. -/
theorem search_sig_P_monotone (code_fft : List ℂ) (T : ℝ) (data : List ℂ)
    (fs fi2 : ℝ) (fds : List ℝ)
    (hcf : (pyTrunc (fs * T)).toNat ≤ code_fft.length) :
    (∀ k r c, 0 ≤ entry (search_sig_P_upto code_fft T data fs fi2 fds k) r c) ∧
    (∀ k r c, entry (search_sig_P_upto code_fft T data fs fi2 fds k) r c ≤
       entry (search_sig_P_upto code_fft T data fs fi2 fds (k + 1)) r c) ∧
    search_sig_P_upto code_fft T data fs fi2 fds
        (py_range ((data.length : ℤ) - code_fft.length + 1)
          (pyTrunc (fs * T)).toNat).length =
      search_sig_P code_fft T data fs fi2 fds := by
  have hupto : ∀ k r c,
      entry (search_sig_P_upto code_fft T data fs fi2 fds k) r c =
        (((py_range ((data.length : ℤ) - code_fft.length + 1)
            (pyTrunc (fs * T)).toNat).take k).map
          (fun i => entry (search_code code_fft T data i fs fi2 fds) r c)).sum := by
    intro k r c
    have h := foldl_mat_add_entry (fun i => search_code code_fft T data i fs fi2 fds)
      fds.length (pyTrunc (fs * T)).toNat
      (fun i => search_code_rect code_fft T data i fs fi2 fds hcf)
      ((py_range ((data.length : ℤ) - code_fft.length + 1)
        (pyTrunc (fs * T)).toNat).take k) r c
      (zeros fds.length (pyTrunc (fs * T)).toNat) (zeros_rect _ _)
    simp only [search_sig_P_upto]
    rw [h, entry_zeros, zero_add]
  refine ⟨?_, ?_, ?_⟩
  · intro k r c
    rw [hupto]
    apply List.sum_nonneg
    intro x hx
    simp only [List.mem_map] at hx
    obtain ⟨i, _, rfl⟩ := hx
    exact search_code_entry_nonneg code_fft T data i fs fi2 fds r c
  · intro k r c
    rw [hupto, hupto, List.take_succ, List.map_append, List.sum_append]
    have hnn : 0 ≤ (((py_range ((data.length : ℤ) - code_fft.length + 1)
        (pyTrunc (fs * T)).toNat)[k]?.toList).map
          (fun i => entry (search_code code_fft T data i fs fi2 fds) r c)).sum := by
      apply List.sum_nonneg
      intro x hx
      simp only [List.mem_map] at hx
      obtain ⟨i, _, rfl⟩ := hx
      exact search_code_entry_nonneg code_fft T data i fs fi2 fds r c
    linarith
  · simp only [search_sig_P_upto, search_sig_P]
    rw [List.take_length]

/-- Witness for `search_sig_P_monotone` at `code_fft = [1]`, `T = 1`,
`data = [1, 1]`, `fs = 1`, `fi = 0`, `fds = [0]`. -/
theorem search_sig_P_monotone_witness :
    (∀ k r c, 0 ≤ entry (search_sig_P_upto [1] 1 [1, 1] 1 0 [0] k) r c) ∧
    (∀ k r c, entry (search_sig_P_upto [1] 1 [1, 1] 1 0 [0] k) r c ≤
       entry (search_sig_P_upto [1] 1 [1, 1] 1 0 [0] (k + 1)) r c) ∧
    search_sig_P_upto [1] 1 [1, 1] 1 0 [0]
        (py_range ((([(1 : ℂ), 1] : List ℂ).length : ℤ) - [(1 : ℂ)].length + 1)
          (pyTrunc ((1 : ℝ) * 1)).toNat).length =
      search_sig_P [1] 1 [1, 1] 1 0 [0] :=
  search_sig_P_monotone [1] 1 [1, 1] 1 0 [0] (by unfold pyTrunc; norm_num)

/-! ### `search_sig` evaluation helpers -/

lemma flat_zeros (R C : ℕ) : flat (zeros R C) = List.replicate (R * C) (0 : ℝ) := by
  induction R with
  | zero => simp [flat, zeros]
  | succ n ih =>
    unfold flat zeros
    rw [List.replicate_succ, List.flatten_cons]
    unfold flat zeros at ih
    rw [ih]
    rw [show (n + 1) * C = C + n * C by ring, List.replicate_add]

lemma corr_max_zeros (R C : ℕ) (T : ℝ) :
    corr_max (zeros R C) T = some (0, (0, 0), 0) := by
  have hargmax : np_argmax (flat (zeros R C)) = 0 := by
    rw [flat_zeros, np_argmax_replicate]
  have hmean : np_mean (flat (zeros R C)) = 0 := by
    rw [flat_zeros]
    unfold np_mean
    rw [List.sum_replicate]
    simp
  have hix : corr_max_ix (zeros R C) = (0, 0) := by
    unfold corr_max_ix unravel
    rw [hargmax]
    simp
  have hval : corr_max_val (zeros R C) = 0 := by
    unfold corr_max_val
    rw [hix]
    exact entry_zeros R C 0 0
  unfold corr_max
  rw [hmean, hval, hix]
  norm_num

lemma search_sig_P_rect (code_fft : List ℂ) (T : ℝ) (data : List ℂ)
    (fs fi2 : ℝ) (fds : List ℝ)
    (hcf : (pyTrunc (fs * T)).toNat ≤ code_fft.length) :
    Rect (search_sig_P code_fft T data fs fi2 fds) fds.length
      (pyTrunc (fs * T)).toNat := by
  unfold search_sig_P
  exact foldl_mat_add_rect _ _ _
    (fun i => search_code_rect code_fft T data i fs fi2 fds hcf) _ _
    (zeros_rect _ _)

/-- Concrete code generator used to instantiate the external collaborator in
witnesses and counterexamples: every signal/PRN has the one-chip code `[1]`. -/
def cg1 : String → ℤ → List ℤ := fun _ _ => [1]

/-- Concrete code-cycle time collaborator: every signal has `T = 1` second. -/
noncomputable def cc1 : String → ℝ := fun _ => 1

/-- Concrete code-spectrum collaborator: always the one-sample spectrum `[1]`. -/
noncomputable def gcf1 : List ℤ → ℝ → ℝ → ℝ → ℕ → ℕ → List ℂ := fun _ _ _ _ _ _ => [1]

lemma pyTrunc_three_halves : pyTrunc ((3 / 2 : ℝ) * cc1 "L1CA") = 1 := by
  unfold cc1 pyTrunc
  norm_num

/-- When the buffer is shorter than one correlation frame the block loop of
`search_sig` runs zero times, so the accumulated (pre-normalization) surface
stays the all-zero `np.zeros` array. -/
lemma search_sig_P_short (code_fft : List ℂ) (T : ℝ) (data : List ℂ)
    (fs fi2 : ℝ) (fds : List ℝ) (hshort : data.length < code_fft.length) :
    search_sig_P code_fft T data fs fi2 fds =
      zeros fds.length (pyTrunc (fs * T)).toNat := by
  have hstop : ((data.length : ℤ) - code_fft.length + 1) ≤ 0 := by omega
  simp only [search_sig_P]
  rw [py_range_nil _ _ hstop]
  rfl

/-- When the buffer is shorter than one correlation frame the block loop of
`search_sig` runs zero times and the call completes with `cn0 = 0`, peak
`(0, 0)` and peak value `P_max = 0`.  This equality exhibits the returned
value of the real-number embedding; note that the normalized surface it
records applies `fun x => x / 0` to the zero entries, where the Python program
computes the IEEE quotients `0.0 / 0.0` (NaN, with a numpy warning) — total
real division maps them to 0 instead, so no theorem may read off the values of
these normalized entries (statements about this path use the
pre-normalization surface `search_sig_P`, see `search_sig_P_short`). -/
lemma search_sig_short (cg : String → ℤ → List ℤ) (cc : String → ℝ)
    (gcf : List ℤ → ℝ → ℝ → ℝ → ℕ → ℕ → List ℂ)
    (sig : String) (prn : ℤ) (data : List ℂ) (fs fi maxd : ℝ) (zp : Bool)
    (hcode : (cg sig prn).length ≠ 0)
    (hN : 1 ≤ pyTrunc (fs * cc sig))
    (hshort : data.length < (gcf (cg sig prn) (cc sig) 0 fs (pyTrunc (fs * cc sig)).toNat
      (if zp then (pyTrunc (fs * cc sig)).toNat else 0)).length) :
    search_sig cg cc gcf sig prn data fs fi maxd zp =
      some ⟨(zeros (dop_bins (cc sig) maxd).length (pyTrunc (fs * cc sig)).toNat).map
              (fun row => row.map (fun x => x / 0)),
            dop_bins (cc sig) maxd, arange 0 (cc sig) (1 / fs), (0, 0), 0,
            fine_dop (transpose_col (zeros (dop_bins (cc sig) maxd).length
              (pyTrunc (fs * cc sig)).toNat) 0) (dop_bins (cc sig) maxd) 0⟩ := by
  have hP := search_sig_P_short (gcf (cg sig prn) (cc sig) 0 fs (pyTrunc (fs * cc sig)).toNat
    (if zp then (pyTrunc (fs * cc sig)).toNat else 0)) (cc sig) data fs
    (shift_freq sig prn fi) (dop_bins (cc sig) maxd) hshort
  simp only [search_sig]
  rw [if_neg hcode, if_neg (by omega : ¬ pyTrunc (fs * cc sig) ≤ 0), hP, corr_max_zeros]

/-! ### Claims C6 and C8 -/

/-- Claim C6 (corrected): the sample count `N` used by `search_sig` is
`int(fs*T)` (truncation toward zero, not `round(fs*T)`): at `fs = 3/2`, `T = 1`
the power surface rows have the width `trunc(1.5) = 1` while `round(1.5) = 2`,
and the code-offset grid has `ceil(fs*T) = 2` elements, not `N = 1`. -/
theorem search_sig_trunc_vs_round :
    ∃ r, search_sig cg1 cc1 gcf1 "L1CA" 1 [] (3 / 2) 0 (1 / 2) true = some r ∧
      (r.P.getD 0 []).length = 1 ∧ r.coffs.length = 2 ∧
      round ((3 : ℝ) / 2 * cc1 "L1CA") = 2 := by
  have hN : 1 ≤ pyTrunc ((3 / 2 : ℝ) * cc1 "L1CA") := by
    unfold cc1 pyTrunc
    norm_num
  have hr := search_sig_short cg1 cc1 gcf1 "L1CA" 1 [] (3 / 2) 0 (1 / 2) true
    (by unfold cg1; simp) hN (by unfold gcf1; simp)
  refine ⟨_, hr, ?_, ?_, ?_⟩
  · have hRpos : 0 < (dop_bins (cc1 "L1CA") (1 / 2)).length := by
      rw [show cc1 "L1CA" = 1 from rfl, dop_bins_length 1 (1 / 2) (by norm_num) (by norm_num)]
      omega
    have hNval : (pyTrunc ((3 / 2 : ℝ) * cc1 "L1CA")).toNat = 1 := by
      unfold cc1 pyTrunc
      norm_num
    simp only [zeros, List.map_replicate]
    rw [getD_replicate_ite, if_pos hRpos, List.length_replicate, hNval]
  · show (arange 0 (cc1 "L1CA") (1 / (3 / 2))).length = 2
    rw [arange_length, show cc1 "L1CA" = 1 from rfl,
        show ⌈((1 : ℝ) - 0) / (1 / (3 / 2))⌉ = 2 by norm_num [Int.ceil_eq_iff]]
    rfl
  · rw [show cc1 "L1CA" = 1 from rfl, round_eq]
    norm_num

/-- Claim C6 (amended): for positive `fs` and `T` (and a code spectrum at least
`N` samples long) every successful `search_sig` call uses `N = int(fs*T)`
(truncation toward zero) as the power-surface row width, the surface has one
row per Doppler bin, and the code-offset grid is `arange(0, T, 1/fs)`: it
starts at 0 with constant step `1/fs` and has `ceil(fs*T)` elements, which
equals `N` exactly when `fs*T` is an integer. -/
theorem search_sig_N_spec (cg : String → ℤ → List ℤ) (cc : String → ℝ)
    (gcf : List ℤ → ℝ → ℝ → ℝ → ℕ → ℕ → List ℂ)
    (sig : String) (prn : ℤ) (data : List ℂ) (fs fi maxd : ℝ) (zp : Bool)
    (r : SearchResult)
    (hfs : 0 < fs)
    (hcode : (cg sig prn).length ≠ 0)
    (hcf : (pyTrunc (fs * cc sig)).toNat ≤ (gcf (cg sig prn) (cc sig) 0 fs
      (pyTrunc (fs * cc sig)).toNat (if zp then (pyTrunc (fs * cc sig)).toNat else 0)).length)
    (hr : search_sig cg cc gcf sig prn data fs fi maxd zp = some r) :
    r.P.length = (dop_bins (cc sig) maxd).length ∧
    (∀ i, i < r.P.length → (r.P.getD i []).length = (pyTrunc (fs * cc sig)).toNat) ∧
    r.coffs = arange 0 (cc sig) (1 / fs) ∧
    r.coffs.length = ⌈fs * cc sig⌉.toNat ∧
    (∀ k, k < r.coffs.length → r.coffs.getD k 0 = k * (1 / fs)) := by
  simp only [search_sig] at hr
  rw [if_neg hcode] at hr
  by_cases hN : pyTrunc (fs * cc sig) ≤ 0
  · rw [if_pos hN] at hr
    exact absurd hr (by simp)
  · rw [if_neg hN] at hr
    have hrect := search_sig_P_rect (gcf (cg sig prn) (cc sig) 0 fs
      (pyTrunc (fs * cc sig)).toNat (if zp then (pyTrunc (fs * cc sig)).toNat else 0))
      (cc sig) data fs (shift_freq sig prn fi) (dop_bins (cc sig) maxd) hcf
    rcases hcm : corr_max (search_sig_P (gcf (cg sig prn) (cc sig) 0 fs
      (pyTrunc (fs * cc sig)).toNat (if zp then (pyTrunc (fs * cc sig)).toNat else 0))
      (cc sig) data fs (shift_freq sig prn fi) (dop_bins (cc sig) maxd)) (cc sig)
      with _ | hsome
    · rw [hcm] at hr
      exact absurd hr (by simp)
    · obtain ⟨Pm, pix, cn0⟩ := hsome
      rw [hcm] at hr
      have hreq := Option.some.inj hr
      have hcoffs : r.coffs = arange 0 (cc sig) (1 / fs) := by
        rw [← hreq]
      have hclen : (arange 0 (cc sig) (1 / fs)).length = ⌈fs * cc sig⌉.toNat := by
        rw [arange_length]
        have harg : (cc sig - 0) / (1 / fs) = fs * cc sig := by
          field_simp
          ring
        rw [harg]
      refine ⟨?_, ?_, hcoffs, ?_, ?_⟩
      · rw [← hreq]
        simp only [List.length_map]
        exact hrect.1
      · intro i hi
        rw [← hreq] at hi ⊢
        simp only [List.length_map] at hi
        have hi2 : i < (search_sig_P (gcf (cg sig prn) (cc sig) 0 fs
            (pyTrunc (fs * cc sig)).toNat
            (if zp then (pyTrunc (fs * cc sig)).toNat else 0))
            (cc sig) data fs (shift_freq sig prn fi) (dop_bins (cc sig) maxd)).length := hi
        simp only []
        rw [getD_of_lt _ _ _ (by simpa using hi2)]
        simp only [List.get_eq_getElem, List.getElem_map, List.length_map]
        have hPlen := hrect.1
        have hrow := hrect.2 i (by omega)
        rw [getD_of_lt _ _ _ hi2] at hrow
        simpa using hrow
      · rw [hcoffs, hclen]
      · intro k hk
        rw [hcoffs] at hk ⊢
        rw [arange_length] at hk
        rw [arange_getD _ _ _ _ hk, zero_add]

/-- Witness for `search_sig_N_spec` at the concrete collaborators `cg1`, `cc1`,
`gcf1` with `fs = 3/2`, short buffer `[]`. -/
theorem search_sig_N_spec_witness :
    ∃ r, search_sig cg1 cc1 gcf1 "L1CA" 1 [] (3 / 2) 0 (1 / 2) true = some r ∧
      (r.P.length = (dop_bins (cc1 "L1CA") (1 / 2)).length ∧
       (∀ i, i < r.P.length →
         (r.P.getD i []).length = (pyTrunc ((3 / 2 : ℝ) * cc1 "L1CA")).toNat) ∧
       r.coffs = arange 0 (cc1 "L1CA") (1 / (3 / 2)) ∧
       r.coffs.length = ⌈(3 / 2 : ℝ) * cc1 "L1CA"⌉.toNat ∧
       (∀ k, k < r.coffs.length → r.coffs.getD k 0 = k * (1 / (3 / 2)))) := by
  have hN : 1 ≤ pyTrunc ((3 / 2 : ℝ) * cc1 "L1CA") := by
    unfold cc1 pyTrunc
    norm_num
  have hr := search_sig_short cg1 cc1 gcf1 "L1CA" 1 [] (3 / 2) 0 (1 / 2) true
    (by unfold cg1; simp) hN (by unfold gcf1; simp)
  exact ⟨_, hr, search_sig_N_spec cg1 cc1 gcf1 "L1CA" 1 [] (3 / 2) 0 (1 / 2) true _
    (by norm_num) (by unfold cg1; simp)
    (by rw [pyTrunc_three_halves]
        unfold gcf1
        simp) hr⟩

/-- Claim C8 (amended): `search_sig` performs no explicit precondition check on
malformed inputs. A buffer shorter than one correlation frame is not rejected:
the block loop runs zero times, the accumulated (pre-normalization) surface is
the all-zero array, `corr_max` on it yields peak value 0 at index `(0, 0)` with
`cn0 = 0.0`, and the call completes and returns this degenerate result instead
of failing fast (the returned normalized surface divides those zeros by the
zero peak, so in numpy its entries are the NaN quotients `0.0/0.0` — outside
the real-number model, and not constrained by this theorem); a non-positive
`int(fs*T)` raises only incidentally (`np.zeros` with a negative dimension, or
`range` with step 0), not via a boundary check. -/
theorem search_sig_no_fail_fast (cg : String → ℤ → List ℤ) (cc : String → ℝ)
    (gcf : List ℤ → ℝ → ℝ → ℝ → ℕ → ℕ → List ℂ)
    (sig : String) (prn : ℤ) (data : List ℂ) (fs fi maxd : ℝ) (zp : Bool)
    (hcode : (cg sig prn).length ≠ 0) :
    (pyTrunc (fs * cc sig) ≤ 0 →
      search_sig cg cc gcf sig prn data fs fi maxd zp = none) ∧
    (1 ≤ pyTrunc (fs * cc sig) →
      data.length < (gcf (cg sig prn) (cc sig) 0 fs (pyTrunc (fs * cc sig)).toNat
        (if zp then (pyTrunc (fs * cc sig)).toNat else 0)).length →
      search_sig_P (gcf (cg sig prn) (cc sig) 0 fs (pyTrunc (fs * cc sig)).toNat
          (if zp then (pyTrunc (fs * cc sig)).toNat else 0)) (cc sig) data fs
          (shift_freq sig prn fi) (dop_bins (cc sig) maxd) =
        zeros (dop_bins (cc sig) maxd).length (pyTrunc (fs * cc sig)).toNat ∧
      corr_max (zeros (dop_bins (cc sig) maxd).length (pyTrunc (fs * cc sig)).toNat)
          (cc sig) = some (0, (0, 0), 0) ∧
      ∃ r, search_sig cg cc gcf sig prn data fs fi maxd zp = some r ∧
        r.cn0 = 0 ∧ r.ix = (0, 0)) := by
  constructor
  · intro hN
    simp only [search_sig]
    rw [if_neg hcode, if_pos hN]
  · intro hN hshort
    exact ⟨search_sig_P_short (gcf (cg sig prn) (cc sig) 0 fs (pyTrunc (fs * cc sig)).toNat
        (if zp then (pyTrunc (fs * cc sig)).toNat else 0)) (cc sig) data fs
        (shift_freq sig prn fi) (dop_bins (cc sig) maxd) hshort,
      corr_max_zeros _ _ _,
      _, search_sig_short cg cc gcf sig prn data fs fi maxd zp hcode hN hshort,
      rfl, rfl⟩

/-- Counterexample to claim C8 as stated: calling `search_sig` with an empty
buffer (shorter than one code cycle; `fs`, `T` positive, code replica
non-empty) does not fail fast — the call completes and returns a value. -/
theorem search_sig_short_buffer_returns :
    ([] : List ℂ).length <
      (gcf1 (cg1 "L1CA" 1) (cc1 "L1CA") 0 (3 / 2) (pyTrunc ((3 / 2 : ℝ) * cc1 "L1CA")).toNat
        (if true then (pyTrunc ((3 / 2 : ℝ) * cc1 "L1CA")).toNat else 0)).length ∧
    (search_sig cg1 cc1 gcf1 "L1CA" 1 [] (3 / 2) 0 (1 / 2) true).isSome = true := by
  constructor
  · unfold gcf1
    simp
  · have hN : 1 ≤ pyTrunc ((3 / 2 : ℝ) * cc1 "L1CA") := by
      unfold cc1 pyTrunc
      norm_num
    rw [search_sig_short cg1 cc1 gcf1 "L1CA" 1 [] (3 / 2) 0 (1 / 2) true
      (by unfold cg1; simp) hN (by unfold gcf1; simp)]
    rfl

/-- Witness for `search_sig_no_fail_fast` at the concrete collaborators. -/
theorem search_sig_no_fail_fast_witness :
    (pyTrunc ((3 / 2 : ℝ) * cc1 "L1CA") ≤ 0 →
      search_sig cg1 cc1 gcf1 "L1CA" 1 [] (3 / 2) 0 (1 / 2) true = none) ∧
    (1 ≤ pyTrunc ((3 / 2 : ℝ) * cc1 "L1CA") →
      ([] : List ℂ).length <
        (gcf1 (cg1 "L1CA" 1) (cc1 "L1CA") 0 (3 / 2) (pyTrunc ((3 / 2 : ℝ) * cc1 "L1CA")).toNat
          (if true then (pyTrunc ((3 / 2 : ℝ) * cc1 "L1CA")).toNat else 0)).length →
      search_sig_P (gcf1 (cg1 "L1CA" 1) (cc1 "L1CA") 0 (3 / 2)
          (pyTrunc ((3 / 2 : ℝ) * cc1 "L1CA")).toNat
          (if true then (pyTrunc ((3 / 2 : ℝ) * cc1 "L1CA")).toNat else 0)) (cc1 "L1CA") []
          (3 / 2) (shift_freq "L1CA" 1 0) (dop_bins (cc1 "L1CA") (1 / 2)) =
        zeros (dop_bins (cc1 "L1CA") (1 / 2)).length
          (pyTrunc ((3 / 2 : ℝ) * cc1 "L1CA")).toNat ∧
      corr_max (zeros (dop_bins (cc1 "L1CA") (1 / 2)).length
          (pyTrunc ((3 / 2 : ℝ) * cc1 "L1CA")).toNat) (cc1 "L1CA") = some (0, (0, 0), 0) ∧
      ∃ r, search_sig cg1 cc1 gcf1 "L1CA" 1 [] (3 / 2) 0 (1 / 2) true = some r ∧
        r.cn0 = 0 ∧ r.ix = (0, 0)) :=
  search_sig_no_fail_fast cg1 cc1 gcf1 "L1CA" 1 [] (3 / 2) 0 (1 / 2) true
    (by unfold cg1; simp)

end SdrFunc
